import Mathlib

/-
  Verification development for the rbase base-address inference tool.

  The pipeline of src/main.rs is embedded shallowly:
  * machine words and file offsets are Nat (the source subtracts only after
    checking `address >= string_file_offset`, so Nat subtraction is exact);
  * the DashSet / DashMap containers are modelled as lists deduplicated in a
    canonical order (the source leaves concurrent iteration order
    unspecified) and as bucket-lookup functions;
  * `take_any n` is modelled as `List.take n`;
  * panicking operations (`step_by` with step 0 when `bytes.len() <
    available_parallelism`, and `try_into().unwrap()` on a trailing partial
    word) are modelled with `Except`;
  * Rust's stable `sort_by(|(_a1, v1), (_a2, v2)| v2.cmp(v1))` is modelled by
    the stable `List.insertionSort` with the same descending-count order;
  * the regex `([[:print:][:space:]]{min,max})\0` with `find_iter` is
    modelled by an executable scanner with leftmost, non-overlapping match
    semantics specialised to this pattern.
-/

set_option maxRecDepth 100000

namespace RBase

/-- Tail-recursive list length (helper).  `bytes.len()` of the source is
modelled with this function so that concrete buffers of several KiB reduce
inside the kernel with constant stack depth; `len_eq_length` identifies it
with `List.length`. -/
def lenAux : Nat → List Nat → Nat
  | acc, [] => acc
  | acc, _ :: rest => lenAux (acc + 1) rest

/-- `bytes.len()`. -/
def len (l : List Nat) : Nat := lenAux 0 l

/-- `PAGE_OFFSET_MASK` from src/main.rs line 21. -/
def PAGE_OFFSET_MASK : Nat := 0xFFF

/-- `value & PAGE_OFFSET_MASK`: the page-offset bucket key used by both
indices. -/
def pageOffset (v : Nat) : Nat := v &&& PAGE_OFFSET_MASK

/-- Membership of a byte in the character class `[[:print:][:space:]]` of the
string-finding regex: printable ASCII `0x20-0x7E` together with the
whitespace controls `\t \n \v \f \r` (`0x09-0x0D`).  The NUL byte is not in
the class. -/
def isClassByte (b : Nat) : Bool := (0x20 ≤ b && b ≤ 0x7E) || (0x09 ≤ b && b ≤ 0x0D)

/-- Length of the maximal prefix of `l` made of class bytes (the greedy run
the regex engine consumes from the current position). -/
def runLenFrom : List Nat → Nat
  | [] => 0
  | b :: rest => if isClassByte b then runLenFrom rest + 1 else 0

/-- One step of `Regex::find_iter` for the pattern `(class{min,max})\0`:
scanning the suffix `l` (which sits at absolute position `j` of the chunk),
a match starts at the current position iff the greedy class run `r` from
here satisfies `min ≤ r ≤ max` and is immediately followed by a NUL byte.
On a match the iterator resumes after the consumed NUL (non-overlapping
matches); otherwise it advances one byte.  The fuel argument bounds the
recursion; every step consumes at least one byte of `l`. -/
def findMatchesAux (minLen maxLen : Nat) : Nat → List Nat → Nat → List Nat
  | 0, _, _ => []
  | _ + 1, [], _ => []
  | fuel + 1, b :: rest, j =>
    let r := runLenFrom (b :: rest)
    if minLen ≤ r ∧ r ≤ maxLen ∧ (b :: rest)[r]? = some 0 then
      j :: findMatchesAux minLen maxLen fuel (rest.drop r) (j + r + 1)
    else
      findMatchesAux minLen maxLen fuel rest (j + 1)

/-- All match start positions produced by `re.find_iter(chunk)` for the
string regex. -/
def findMatches (chunk : List Nat) (minLen maxLen : Nat) : List Nat :=
  findMatchesAux minLen maxLen (len chunk + 1) chunk 0

/-- Specification view of one candidate position: `matchAt chunk min max j`
is `some r` iff a match of run length `r` starts at position `j` of
`chunk`. -/
def matchAt (chunk : List Nat) (minLen maxLen j : Nat) : Option Nat :=
  let r := runLenFrom (chunk.drop j)
  if minLen ≤ r ∧ r ≤ maxLen ∧ chunk[j + r]? = some 0 then some r else none

/-- `bytes[i..e]` as a list. -/
def sliceTo (bytes : List Nat) (i e : Nat) : List Nat := (bytes.drop i).take (e - i)

/-- The chunk start offsets `(0..limit).step_by(chunkSize)` (for
`chunkSize > 0`). -/
def chunkStarts (limit chunkSize : Nat) : List Nat :=
  (List.range ((limit + chunkSize - 1) / chunkSize)).map (fun k => k * chunkSize)

/-- The overlapping string-scan chunks of src/main.rs lines 180-189: each
chunk runs from its start to `start + chunk_size + max_string_length - 1`,
clipped to the end of the buffer. -/
def overlappingChunks (bytes : List Nat) (maxLen chunkSize : Nat) : List (Nat × List Nat) :=
  (chunkStarts (len bytes) chunkSize).map
    (fun i => (i, sliceTo bytes i (Nat.min (i + chunkSize + maxLen - 1) (len bytes))))

/-- The deduplicating DashSet of absolute string offsets harvested from all
chunks (src/main.rs lines 197-207), for a validated `chunkSize`. -/
def string_offset_set (bytes : List Nat) (minLen maxLen chunkSize : Nat) : List Nat :=
  ((overlappingChunks bytes maxLen chunkSize).flatMap
    (fun ic => (findMatches ic.2 minLen maxLen).map (fun m => ic.1 + m))).dedup

/-- The string-locating stage.  `chunk_size = bytes.len() /
available_parallelism()`; when it is zero, `step_by(chunk_size)` in the
source panics, modelled as an error. -/
def string_offsets (bytes : List Nat) (minLen maxLen nproc : Nat) : Except String (List Nat) :=
  if len bytes / nproc = 0 then Except.error "panicked at step_by: step is zero"
  else Except.ok (string_offset_set bytes minLen maxLen (len bytes / nproc))

/-- `get_strings_by_page_offset` (src/main.rs lines 171-227) up to bucketing:
the sampled list of unique string file offsets.  The source's
`take_any(max_strings)` draws an arbitrary, run-dependent subset of the
randomly seeded DashSet; it is modelled here as `take` of the canonical
order, which matches the source exactly as a set whenever the set fits
within the cap (no truncation) and is otherwise only one of the possible
samples. -/
def get_strings_by_page_offset (bytes : List Nat) (minLen maxLen maxStrings nproc : Nat) :
    Except String (List Nat) :=
  (string_offsets bytes minLen maxLen nproc).map (List.take maxStrings)

/-- `bytes.chunks(N)` restricted to the case where it is immediately
converted with `try_into()`: the consecutive `N`-byte slices of the buffer.
The fuel argument bounds the recursion. -/
def chunksExact (n : Nat) : Nat → List Nat → List (List Nat)
  | 0, _ => []
  | fuel + 1, l => if l.isEmpty then [] else l.take n :: chunksExact n fuel (l.drop n)

/-- The decoded aligned words of the buffer (`chunks(size_of::<T>())` then
`read_address_bytes`). -/
def alignedWords (bytes : List Nat) (n : Nat) (decode : List Nat → Nat) : List Nat :=
  (chunksExact n (len bytes + 1) bytes).map decode

/-- The deduplicating DashSet of candidate addresses (src/main.rs lines
241-249): decode every aligned word, drop the all-zero value, dedup. -/
def address_set (bytes : List Nat) (n : Nat) (decode : List Nat → Nat) : List Nat :=
  ((alignedWords bytes n decode).filter (fun a => a != 0)).dedup

/-- `get_addresses_by_page_offset` (src/main.rs lines 229-269) up to
bucketing: the sampled list of unique nonzero decoded words.  As with the
strings, `take_any(max_addresses)` is an arbitrary run-dependent sample,
modelled as `take` of the canonical order: exact as a set when no
truncation occurs, one possible sample otherwise.  When the buffer length
is not a multiple of the word size, the source's `c.try_into().unwrap()`
panics on the trailing partial chunk, modelled as an error. -/
def get_addresses_by_page_offset (bytes : List Nat) (n : Nat) (decode : List Nat → Nat)
    (maxAddresses : Nat) : Except String (List Nat) :=
  if len bytes % n = 0 then
    Except.ok ((address_set bytes n decode).take maxAddresses)
  else Except.error "panicked at try_into().unwrap() on a trailing partial word"

/-- The page-offset index (`DashMap<T, Vec<T>>`): bucket `b` holds exactly
the elements whose page offset is `b` (the source pushes each element into
the bucket of its own page offset; per-bucket order is unspecified there). -/
def indexByPageOffset (xs : List Nat) (b : Nat) : List Nat :=
  xs.filter (fun x => pageOffset x == b)

/-- `u32::from_le_bytes` / `u64::from_le_bytes` on an exact word-sized
chunk. -/
def word_from_le_bytes (l : List Nat) : Nat := l.foldr (fun b acc => b + 256 * acc) 0

/-- `u32::from_be_bytes` / `u64::from_be_bytes` on an exact word-sized
chunk. -/
def word_from_be_bytes (l : List Nat) : Nat := l.foldl (fun acc b => acc * 256 + b) 0

/-- The candidates contributed by one string offset `S` (src/main.rs lines
293-303): every address in the bucket of `S`'s page offset with
`address >= string_file_offset` votes for `address - string_file_offset`. -/
def votesForString (s : Nat) (addrs : List Nat) : List Nat :=
  ((indexByPageOffset addrs (pageOffset s)).filter (fun a => s ≤ a)).map (fun a => a - s)

/-- All candidate base addresses produced by the voting loop, one entry per
(string offset, address) pair considered.  The source walks the string index
bucket by bucket and looks each bucket key up in the address index; since a
string offset `S` sits exactly in bucket `pageOffset S`, this is the same
collection of pairs. -/
def votes (strs addrs : List Nat) : List Nat :=
  strs.flatMap (fun s => votesForString s addrs)

/-- The frequency DashMap `base_addresses` of src/main.rs lines 288-305:
each candidate together with its number of votes (canonical order; the
source's map iteration order is unspecified). -/
def base_address_tallies (strs addrs : List Nat) : List (Nat × Nat) :=
  (votes strs addrs).dedup.map (fun c => (c, (votes strs addrs).count c))

/-- The `v > 1` filter of src/main.rs lines 311-314. -/
def recurringCandidates (tallies : List (Nat × Nat)) : List (Nat × Nat) :=
  tallies.filter (fun p => 1 < p.2)

/-- The comparator `|(_a1, v1), (_a2, v2)| v2.cmp(v1)`: descending count. -/
def descByCount (p q : Nat × Nat) : Prop := q.2 ≤ p.2

instance : DecidableRel descByCount :=
  fun p q => inferInstanceAs (Decidable (q.2 ≤ p.2))

instance : IsTotal (Nat × Nat) descByCount :=
  ⟨fun p q => Nat.le_total q.2 p.2⟩

instance : IsTrans (Nat × Nat) descByCount :=
  ⟨fun _ _ _ h1 h2 => Nat.le_trans h2 h1⟩

/-- The stable descending-by-count sort of src/main.rs line 322. -/
def sortCandidates (l : List (Nat × Nat)) : List (Nat × Nat) :=
  List.insertionSort descByCount l

/-- Final stage of `get_base_address` (src/main.rs lines 311-336) from a
given tally map: filter the recurring candidates, sort by descending count,
return the first candidate if any. -/
def best_from_tallies (tallies : List (Nat × Nat)) : Option Nat :=
  (sortCandidates (recurringCandidates tallies)).head?.map Prod.fst

/-- `get_base_address` (src/main.rs lines 271-337): run both locators, vote,
filter, sort, and return the most frequent candidate (or `none`).  A panic
in either locator aborts the whole run. -/
def get_base_address (bytes : List Nat) (n : Nat) (decode : List Nat → Nat)
    (minLen maxLen maxStrings maxAddresses nproc : Nat) : Except String (Option Nat) :=
  match get_strings_by_page_offset bytes minLen maxLen maxStrings nproc with
  | Except.error e => Except.error e
  | Except.ok strs =>
    match get_addresses_by_page_offset bytes n decode maxAddresses with
    | Except.error e => Except.error e
    | Except.ok addrs => Except.ok (best_from_tallies (base_address_tallies strs addrs))

/- Concrete inputs used to settle the claims. -/

/-- A 4-byte buffer holding the single 32-bit little-endian word 1: a
nonzero word value occurring exactly once among the aligned words. -/
def addr1buf : List Nat := [0x01, 0, 0, 0]

/-- The 0x2000-byte Scenario A buffer, written as contiguous segments: 256
zero bytes; a 20-byte ASCII identifier (`'A' * 20`, offsets 0x100-0x113)
followed by its NUL (the first of 236 zero bytes); the 8-byte little-endian
word 0x9100 at aligned offset 0x200 (bytes `0, 0x91, 0, ..., 0`); 248 zero
bytes; the same word 0x9100 again at aligned offset 0x300; 7416 trailing
zero bytes.  256+20+236+8+248+8+7416 = 0x2000. -/
def sceneA : List Nat :=
  List.replicate 256 0 ++
    (List.replicate 20 0x41 ++
      (List.replicate 236 0 ++
        ([0, 0x91, 0, 0, 0, 0, 0, 0] ++
          (List.replicate 248 0 ++
            ([0, 0x91, 0, 0, 0, 0, 0, 0] ++ List.replicate 7416 0)))))

/-- A 16-byte buffer whose only string content is a maximal printable run of
length 4 at offset 7 followed by a NUL at offset 11. -/
def straddleBuf : List Nat := (List.range 16).map (fun i => if 7 ≤ i ∧ i < 11 then 0x41 else 0)

/-- A 48-byte buffer (32-bit words) holding the strings "AB" at offset 0x10
(bucket 0x10) and "CD" at offset 0x18 (bucket 0x18) and the four
little-endian words 0x1010, 0x3010 (bucket 0x10), 0x1018, 0x3018 (bucket
0x18) at aligned offsets 0x20, 0x24, 0x28, 0x2C.  The candidates 0x1000 and
0x3000 each receive exactly two votes: the two top tallies tie. -/
def tieBuf : List Nat :=
  [0, 0, 0, 0, 0, 0, 0, 0, 0, 0, 0, 0, 0, 0, 0, 0,
   0x41, 0x42, 0, 0, 0, 0, 0, 0, 0x43, 0x44, 0, 0, 0, 0, 0, 0,
   0x10, 0x10, 0, 0, 0x10, 0x30, 0, 0, 0x18, 0x10, 0, 0, 0x18, 0x30, 0, 0]

/-- `tieBuf` with its last word zeroed: candidate 0x1000 (tally 2) is the
unique candidate with the maximal tally (0x3000 has tally 1). -/
def uniqueTopBuf : List Nat :=
  [0, 0, 0, 0, 0, 0, 0, 0, 0, 0, 0, 0, 0, 0, 0, 0,
   0x41, 0x42, 0, 0, 0, 0, 0, 0, 0x43, 0x44, 0, 0, 0, 0, 0, 0,
   0x10, 0x10, 0, 0, 0x10, 0x30, 0, 0, 0x18, 0x10, 0, 0, 0, 0, 0, 0]

/- Helper lemmas. -/

theorem lenAux_eq (l : List Nat) : ∀ acc, lenAux acc l = acc + l.length := by
  induction l with
  | nil => intro acc; simp [lenAux]
  | cons b rest ih =>
    intro acc
    rw [lenAux, ih]
    simp
    omega

theorem len_eq_length (l : List Nat) : len l = l.length := by
  rw [len, lenAux_eq]
  omega

theorem pageOffset_eq_mod (v : Nat) : pageOffset v = v % 4096 := by
  have h := Nat.and_pow_two_sub_one_eq_mod v 12
  norm_num at h
  exact h

theorem get_addresses_ok (bytes : List Nat) (n : Nat) (decode : List Nat → Nat)
    (maxA : Nat) (l : List Nat)
    (hl : get_addresses_by_page_offset bytes n decode maxA = Except.ok l) :
    l = (address_set bytes n decode).take maxA := by
  unfold get_addresses_by_page_offset at hl
  by_cases h : len bytes % n = 0
  · rw [if_pos h] at hl
    exact (Except.ok.inj hl).symm
  · rw [if_neg h] at hl
    exact Except.noConfusion hl

theorem get_strings_ok (bytes : List Nat) (minLen maxLen maxStrings nproc : Nat)
    (l : List Nat)
    (hl : get_strings_by_page_offset bytes minLen maxLen maxStrings nproc = Except.ok l) :
    l = (string_offset_set bytes minLen maxLen (len bytes / nproc)).take maxStrings := by
  unfold get_strings_by_page_offset string_offsets at hl
  by_cases h : len bytes / nproc = 0
  · rw [if_pos h] at hl
    simp only [Except.map] at hl
    exact Except.noConfusion hl
  · rw [if_neg h] at hl
    simp only [Except.map] at hl
    exact (Except.ok.inj hl).symm

theorem address_list_nodup (bytes : List Nat) (n : Nat) (decode : List Nat → Nat)
    (maxA : Nat) (l : List Nat)
    (hl : get_addresses_by_page_offset bytes n decode maxA = Except.ok l) :
    l.Nodup := by
  rw [get_addresses_ok bytes n decode maxA l hl]
  exact List.Nodup.sublist (List.take_sublist _ _) (List.nodup_dedup _)

theorem best_of_perm_unique_top (t l : List (Nat × Nat)) (top : Nat × Nat)
    (hperm : List.Perm l t)
    (htop : top ∈ recurringCandidates t)
    (huniq : ∀ q ∈ recurringCandidates t, q ≠ top → q.2 < top.2) :
    best_from_tallies l = some top.1 := by
  have hpf : List.Perm (recurringCandidates l) (recurringCandidates t) := hperm.filter _
  have hps : List.Perm (sortCandidates (recurringCandidates l)) (recurringCandidates t) :=
    (List.perm_insertionSort descByCount (recurringCandidates l)).trans hpf
  have htop' : top ∈ sortCandidates (recurringCandidates l) := hps.mem_iff.mpr htop
  have hsorted : List.Sorted descByCount (sortCandidates (recurringCandidates l)) :=
    List.sorted_insertionSort descByCount (recurringCandidates l)
  cases hsort : sortCandidates (recurringCandidates l) with
  | nil =>
    rw [hsort] at htop'
    exact absurd htop' (List.not_mem_nil top)
  | cons h rest =>
    rw [hsort] at htop' hsorted
    have hh : h ∈ recurringCandidates t := hps.mem_iff.mp (hsort ▸ List.mem_cons_self h rest)
    have hht : h = top := by
      by_contra hne
      have hlt : h.2 < top.2 := huniq h hh hne
      rcases List.mem_cons.mp htop' with heq | hmem
      · exact hne heq.symm
      · have := List.rel_of_sorted_cons hsorted top hmem
        exact absurd hlt (Nat.not_lt.mpr this)
    unfold best_from_tallies
    rw [hsort, hht]
    rfl

theorem votesForString_perm (s : Nat) (a1 a2 : List Nat) (h : List.Perm a1 a2) :
    List.Perm (votesForString s a1) (votesForString s a2) := by
  unfold votesForString indexByPageOffset
  exact ((h.filter _).filter _).map _

theorem votes_perm (s1 s2 a1 a2 : List Nat) (hs : List.Perm s1 s2) (ha : List.Perm a1 a2) :
    List.Perm (votes s1 a1) (votes s2 a2) := by
  unfold votes
  exact (hs.flatMap_right _).trans
    (List.Perm.flatMap_left s2 (fun s _ => votesForString_perm s a1 a2 ha))

theorem base_address_tallies_perm (s1 s2 a1 a2 : List Nat)
    (hs : List.Perm s1 s2) (ha : List.Perm a1 a2) :
    List.Perm (base_address_tallies s1 a1) (base_address_tallies s2 a2) := by
  have hv : List.Perm (votes s1 a1) (votes s2 a2) := votes_perm s1 s2 a1 a2 hs ha
  unfold base_address_tallies
  have hmap : (votes s1 a1).dedup.map (fun c => (c, (votes s1 a1).count c)) =
      (votes s1 a1).dedup.map (fun c => (c, (votes s2 a2).count c)) :=
    List.map_congr_left (fun c _ => by rw [hv.count_eq c])
  rw [hmap]
  exact hv.dedup.map _

/- Claim theorems. -/

/-- C1 counterexample: for the buffer `[0x01, 0, 0, 0]` (32-bit
little-endian), the decoded word value 1 occurs exactly once among the
aligned words of the buffer, yet `get_addresses_by_page_offset` retains it
and it is present in the Address Index, in its page-offset bucket.  The
claimed count > 1 retention filter does not exist in
`get_addresses_by_page_offset`. -/
theorem C1_singleton_address_present_cex :
    (alignedWords addr1buf 4 word_from_le_bytes).count 1 = 1 ∧
    get_addresses_by_page_offset addr1buf 4 word_from_le_bytes 1000000 = Except.ok [1] ∧
    1 ∈ indexByPageOffset [1] (pageOffset 1) :=
  ⟨by decide, rfl, by decide⟩

/-- C1 (amended): `get_addresses_by_page_offset` applies no occurrence-count
filter at all: every nonzero decoded word value of the buffer — including a
value occurring exactly once — appears (deduplicated) in the Address Index
in the bucket of its page offset, whenever the buffer is word-aligned and
the number of distinct nonzero values does not exceed the sampling cap. -/
theorem C1_no_frequency_filter (bytes : List Nat) (n : Nat) (decode : List Nat → Nat)
    (maxA v : Nat)
    (hmod : len bytes % n = 0)
    (hv : v ∈ alignedWords bytes n decode) (hnz : v ≠ 0)
    (hcap : (address_set bytes n decode).length ≤ maxA) :
    get_addresses_by_page_offset bytes n decode maxA =
      Except.ok (address_set bytes n decode) ∧
    v ∈ indexByPageOffset (address_set bytes n decode) (pageOffset v) := by
  constructor
  · unfold get_addresses_by_page_offset
    rw [if_pos hmod, List.take_of_length_le hcap]
  · unfold indexByPageOffset
    apply List.mem_filter.mpr
    refine ⟨?_, by simp⟩
    unfold address_set
    exact List.mem_dedup.mpr (List.mem_filter.mpr ⟨hv, by simpa using hnz⟩)

theorem C1_no_frequency_filter_witness :
    len addr1buf % 4 = 0 ∧
    1 ∈ alignedWords addr1buf 4 word_from_le_bytes ∧ (1 : Nat) ≠ 0 ∧
    (address_set addr1buf 4 word_from_le_bytes).length ≤ 1000000 ∧
    (get_addresses_by_page_offset addr1buf 4 word_from_le_bytes 1000000 =
       Except.ok (address_set addr1buf 4 word_from_le_bytes) ∧
     1 ∈ indexByPageOffset (address_set addr1buf 4 word_from_le_bytes) (pageOffset 1)) :=
  ⟨by decide, by decide, by decide, by decide,
    C1_no_frequency_filter addr1buf 4 word_from_le_bytes 1000000 1
      (by decide) (by decide) (by decide) (by decide)⟩

/- Symbolic evaluation lemmas: they let the scanner and the word chunker be
evaluated over multi-KiB buffers built from `List.replicate` segments
without unfolding them byte by byte. -/

theorem runLenFrom_nonclass (b : Nat) (rest : List Nat) (hb : isClassByte b = false) :
    runLenFrom (b :: rest) = 0 := by
  simp [runLenFrom, hb]

theorem runLenFrom_replicate_class (c : Nat) (hc : isClassByte c = true) (k : Nat)
    (rest : List Nat) :
    runLenFrom (List.replicate k c ++ rest) = k + runLenFrom rest := by
  induction k with
  | zero => simp
  | succ k ih =>
    rw [List.replicate_succ, List.cons_append]
    simp [runLenFrom, hc, ih]
    omega

theorem findMatchesAux_nil (minLen maxLen fuel j : Nat) :
    findMatchesAux minLen maxLen fuel [] j = [] := by
  cases fuel <;> rfl

theorem findMatchesAux_skip (minLen maxLen : Nat) (hmin : 0 < minLen) :
    ∀ (m : Nat) (l : List Nat) (fuel j : Nat),
      ((l.take m).all (fun b => !isClassByte b)) = true →
      findMatchesAux minLen maxLen (fuel + m) l j =
        findMatchesAux minLen maxLen fuel (l.drop m) (j + m) := by
  intro m
  induction m with
  | zero => intro l fuel j _; simp
  | succ m ih =>
    intro l fuel j hall
    cases l with
    | nil => simp [findMatchesAux_nil, List.drop_nil]
    | cons b rest =>
      rw [List.take_succ_cons, List.all_cons] at hall
      obtain ⟨hb0, hrest⟩ := Bool.and_eq_true_iff.mp hall
      have hb : isClassByte b = false := by
        cases h : isClassByte b
        · rfl
        · rw [h] at hb0
          exact absurd hb0 (by simp)
      have e1 : fuel + (m + 1) = (fuel + m) + 1 := rfl
      rw [e1]
      have hstep : findMatchesAux minLen maxLen ((fuel + m) + 1) (b :: rest) j =
          findMatchesAux minLen maxLen (fuel + m) rest (j + 1) := by
        simp only [findMatchesAux]
        rw [runLenFrom_nonclass b rest hb]
        rw [if_neg]
        intro hcon
        omega
      rw [hstep, ih rest fuel (j + 1) hrest, List.drop_succ_cons]
      have e2 : j + 1 + m = j + (m + 1) := by omega
      rw [e2]

theorem findMatchesAux_match (minLen maxLen fuel j r : Nat) (b : Nat) (rest : List Nat)
    (hr : runLenFrom (b :: rest) = r) (hminr : minLen ≤ r) (hmaxr : r ≤ maxLen)
    (hnul : (b :: rest)[r]? = some 0) :
    findMatchesAux minLen maxLen (fuel + 1) (b :: rest) j =
      j :: findMatchesAux minLen maxLen fuel (rest.drop r) (j + r + 1) := by
  simp only [findMatchesAux]
  rw [hr]
  rw [if_pos ⟨hminr, hmaxr, hnul⟩]

theorem findMatchesAux_skip_block (minLen maxLen : Nat) (hmin : 0 < minLen)
    (m : Nat) (blk rest : List Nat) (fuel j : Nat)
    (hlen : blk.length = m) (hall : (blk.all (fun b => !isClassByte b)) = true) :
    findMatchesAux minLen maxLen (fuel + m) (blk ++ rest) j =
      findMatchesAux minLen maxLen fuel rest (j + m) := by
  rw [findMatchesAux_skip minLen maxLen hmin m (blk ++ rest) fuel j
    (by rw [List.take_left' hlen]; exact hall)]
  rw [List.drop_left' hlen]

theorem all_nonclass_replicate_zero (k : Nat) :
    ((List.replicate k (0:Nat)).all (fun b => !isClassByte b)) = true := by
  rw [List.all_replicate]
  cases k with
  | zero => simp
  | succ k => simp [isClassByte]

theorem findMatchesAux_skip_zeros (minLen maxLen : Nat) (hmin : 0 < minLen)
    (k : Nat) (rest : List Nat) (fuel j : Nat) :
    findMatchesAux minLen maxLen (fuel + k) (List.replicate k 0 ++ rest) j =
      findMatchesAux minLen maxLen fuel rest (j + k) :=
  findMatchesAux_skip_block minLen maxLen hmin k (List.replicate k 0) rest fuel j
    (List.length_replicate k 0) (all_nonclass_replicate_zero k)

theorem chunksExact_nil (n fuel : Nat) : chunksExact n fuel [] = [] := by
  cases fuel <;> simp [chunksExact]

theorem chunksExact_block (n : Nat) (blk rest : List Nat) (fuel : Nat)
    (hlen : blk.length = n) (hn : 0 < n) :
    chunksExact n (fuel + 1) (blk ++ rest) = blk :: chunksExact n fuel (rest) := by
  have hne : (blk ++ rest).isEmpty = false := by
    cases blk with
    | nil => simp at hlen; omega
    | cons b bs => simp
  rw [chunksExact, hne]
  simp only [Bool.false_eq_true, if_false]
  rw [List.take_left' hlen, List.drop_left' hlen]

theorem chunksExact_zeros (q : Nat) : ∀ (rest : List Nat) (fuel : Nat),
    chunksExact 8 (fuel + q) (List.replicate (8 * q) 0 ++ rest) =
      List.replicate q (List.replicate 8 0) ++ chunksExact 8 fuel rest := by
  induction q with
  | zero => intro rest fuel; simp
  | succ q ih =>
    intro rest fuel
    have e1 : 8 * (q + 1) = 8 + 8 * q := by ring
    rw [e1, List.replicate_add, List.append_assoc]
    have e2 : fuel + (q + 1) = (fuel + q) + 1 := rfl
    rw [e2]
    rw [chunksExact_block 8 (List.replicate 8 0) (List.replicate (8 * q) 0 ++ rest)
      (fuel + q) (List.length_replicate 8 0) (by omega)]
    rw [ih rest fuel]
    rw [List.replicate_succ (List.replicate 8 0) q, List.cons_append]

theorem scan_match_20A (fuel j : Nat) (rest : List Nat) :
    findMatchesAux 10 32 (fuel + 1) (List.replicate 20 0x41 ++ (0 :: rest)) j =
      j :: findMatchesAux 10 32 fuel rest (j + 21) := by
  have e : List.replicate 20 0x41 ++ (0 :: rest) =
      0x41 :: (List.replicate 19 0x41 ++ (0 :: rest)) := rfl
  rw [e]
  have e2 : (0x41 :: (List.replicate 19 0x41 ++ (0 :: rest))) =
      List.replicate 20 0x41 ++ (0 :: rest) := rfl
  have hr : runLenFrom (0x41 :: (List.replicate 19 0x41 ++ (0 :: rest))) = 20 := by
    rw [e2, runLenFrom_replicate_class 0x41 (by decide) 20 (0 :: rest),
      runLenFrom_nonclass 0 rest (by decide)]
  have hnul : (0x41 :: (List.replicate 19 0x41 ++ (0 :: rest)))[20]? = some 0 := by
    rw [e2, List.getElem?_append_right (by simp)]
    simp
  rw [findMatchesAux_match 10 32 fuel j 20 0x41 (List.replicate 19 0x41 ++ (0 :: rest))
    hr (by norm_num) (by norm_num) hnul]
  have hd : (List.replicate 19 0x41 ++ (0 :: rest)).drop 20 = rest := by
    rw [List.drop_append_eq_append_drop, List.drop_eq_nil_of_le (by simp)]
    simp
  rw [hd, show j + 20 + 1 = j + 21 from by omega]

theorem sceneA_len : len sceneA = 8192 := by
  rw [len_eq_length, sceneA]
  simp only [List.length_append, List.length_replicate, List.length_cons, List.length_nil]

theorem sceneA_scan : findMatches sceneA 10 32 = [256] := by
  rw [findMatches, sceneA_len, sceneA]
  rw [show (8192 : Nat) + 1 = 7937 + 256 from by norm_num]
  rw [findMatchesAux_skip_zeros 10 32 (by norm_num) 256]
  rw [show (0 : Nat) + 256 = 256 from by norm_num]
  rw [show (7937 : Nat) = 7936 + 1 from by norm_num]
  rw [show List.replicate 236 (0 : Nat) = 0 :: List.replicate 235 0 from rfl,
    List.cons_append]
  rw [scan_match_20A 7936 256]
  rw [show (256 : Nat) + 21 = 277 from by norm_num]
  rw [show (7936 : Nat) = 7701 + 235 from by norm_num]
  rw [findMatchesAux_skip_zeros 10 32 (by norm_num) 235]
  rw [show (277 : Nat) + 235 = 512 from by norm_num]
  rw [show (7701 : Nat) = 7693 + 8 from by norm_num]
  rw [findMatchesAux_skip_block 10 32 (by norm_num) 8 [0, 0x91, 0, 0, 0, 0, 0, 0] _ 7693 512
    (by decide) (by decide)]
  rw [show (512 : Nat) + 8 = 520 from by norm_num]
  rw [show (7693 : Nat) = 7445 + 248 from by norm_num]
  rw [findMatchesAux_skip_zeros 10 32 (by norm_num) 248]
  rw [show (520 : Nat) + 248 = 768 from by norm_num]
  rw [show (7445 : Nat) = 7437 + 8 from by norm_num]
  rw [findMatchesAux_skip_block 10 32 (by norm_num) 8 [0, 0x91, 0, 0, 0, 0, 0, 0] _ 7437 768
    (by decide) (by decide)]
  rw [show (768 : Nat) + 8 = 776 from by norm_num]
  rw [show List.replicate 7416 (0 : Nat) = List.replicate 7416 0 ++ [] from
    (List.append_nil _).symm]
  rw [show (7437 : Nat) = 21 + 7416 from by norm_num]
  rw [findMatchesAux_skip_zeros 10 32 (by norm_num) 7416]
  rw [findMatchesAux_nil]

theorem sceneA_words :
    chunksExact 8 8193 sceneA =
      List.replicate 32 (List.replicate 8 0) ++
        (List.replicate 8 0x41 :: List.replicate 8 0x41 ::
          (List.replicate 4 0x41 ++ List.replicate 4 0) ::
            (List.replicate 29 (List.replicate 8 0) ++
              ([0, 0x91, 0, 0, 0, 0, 0, 0] ::
                (List.replicate 31 (List.replicate 8 0) ++
                  ([0, 0x91, 0, 0, 0, 0, 0, 0] ::
                    (List.replicate 927 (List.replicate 8 0) ++ [])))))) := by
  rw [sceneA]
  rw [show List.replicate 20 0x41 =
      List.replicate 8 0x41 ++ (List.replicate 8 0x41 ++ List.replicate 4 0x41) from by
    rw [← List.replicate_add, ← List.replicate_add]]
  rw [show List.replicate 236 (0 : Nat) = List.replicate 4 0 ++ List.replicate 232 0 from by
    rw [← List.replicate_add]]
  simp only [List.append_assoc]
  rw [show ∀ X : List Nat, List.replicate 4 0x41 ++ (List.replicate 4 0 ++ X) =
      (List.replicate 4 0x41 ++ List.replicate 4 0) ++ X from
    fun X => (List.append_assoc _ _ _).symm]
  rw [show (256 : Nat) = 8 * 32 from by norm_num]
  rw [show (8193 : Nat) = 8161 + 32 from by norm_num]
  rw [chunksExact_zeros 32]
  rw [show (8161 : Nat) = 8160 + 1 from by norm_num]
  rw [chunksExact_block 8 (List.replicate 8 0x41) _ 8160 (by simp) (by norm_num)]
  rw [show (8160 : Nat) = 8159 + 1 from by norm_num]
  rw [chunksExact_block 8 (List.replicate 8 0x41) _ 8159 (by simp) (by norm_num)]
  rw [show (8159 : Nat) = 8158 + 1 from by norm_num]
  rw [chunksExact_block 8 (List.replicate 4 0x41 ++ List.replicate 4 0) _ 8158
    (by simp) (by norm_num)]
  rw [show (232 : Nat) = 8 * 29 from by norm_num]
  rw [show (8158 : Nat) = 8129 + 29 from by norm_num]
  rw [chunksExact_zeros 29]
  rw [show (8129 : Nat) = 8128 + 1 from by norm_num]
  rw [chunksExact_block 8 [0, 0x91, 0, 0, 0, 0, 0, 0] _ 8128 (by rfl) (by norm_num)]
  rw [show (248 : Nat) = 8 * 31 from by norm_num]
  rw [show (8128 : Nat) = 8097 + 31 from by norm_num]
  rw [chunksExact_zeros 31]
  rw [show (8097 : Nat) = 8096 + 1 from by norm_num]
  rw [chunksExact_block 8 [0, 0x91, 0, 0, 0, 0, 0, 0] _ 8096 (by rfl) (by norm_num)]
  rw [show List.replicate 7416 (0 : Nat) = List.replicate 7416 0 ++ [] from
    (List.append_nil _).symm]
  rw [show (7416 : Nat) = 8 * 927 from by norm_num]
  rw [show (8096 : Nat) = 7169 + 927 from by norm_num]
  rw [chunksExact_zeros 927]
  rw [chunksExact_nil]

theorem sceneA_addresses :
    get_addresses_by_page_offset sceneA 8 word_from_le_bytes 1000000 =
      Except.ok [0x4141414141414141, 0x41414141, 0x9100] := by
  unfold get_addresses_by_page_offset
  rw [if_pos (by rw [sceneA_len])]
  unfold address_set alignedWords
  rw [sceneA_len]
  rw [show (8192 : Nat) + 1 = 8193 from by norm_num]
  rw [sceneA_words]
  have d0 : word_from_le_bytes (List.replicate 8 0) = 0 := rfl
  have dA8 : word_from_le_bytes (List.replicate 8 0x41) = 0x4141414141414141 := rfl
  have dA4 : word_from_le_bytes (List.replicate 4 0x41 ++ List.replicate 4 0) = 0x41414141 := rfl
  have dW : word_from_le_bytes [0, 0x91, 0, 0, 0, 0, 0, 0] = 0x9100 := rfl
  have f0 : ∀ n : Nat, (List.replicate n (0 : Nat)).filter (fun a => a != 0) = [] :=
    fun n => List.filter_replicate_of_neg (by decide)
  simp only [List.map_append, List.map_replicate, List.map_cons, List.map_nil,
    d0, dA8, dA4, dW, List.filter_append, f0, List.filter_cons, List.filter_nil]
  rfl

theorem sceneA_strings :
    get_strings_by_page_offset sceneA 10 32 100000 1 = Except.ok [256] := by
  unfold get_strings_by_page_offset string_offsets
  rw [sceneA_len]
  rw [if_neg (by norm_num)]
  have hslice : sliceTo sceneA 0 (Nat.min (0 + 8192 + 32 - 1) 8192) = sceneA := by
    rw [show Nat.min (0 + 8192 + 32 - 1) 8192 = 8192 from rfl]
    unfold sliceTo
    rw [List.drop_zero]
    apply List.take_of_length_le
    rw [← len_eq_length, sceneA_len]
  have hset : string_offset_set sceneA 10 32 (8192 / 1) = [256] := by
    rw [show (8192 : Nat) / 1 = 8192 from by norm_num]
    unfold string_offset_set overlappingChunks
    rw [sceneA_len]
    rw [show chunkStarts 8192 8192 = [0] from by decide]
    simp only [List.map_cons, List.map_nil, List.flatMap_cons, List.flatMap_nil,
      List.append_nil]
    rw [hslice, sceneA_scan]
    rfl
  rw [hset]
  rfl

/-- C2 (amended): on the exact Scenario A input (0x2000-byte buffer, 20-byte
identifier + NUL at 0x100, the 64-bit little-endian value 0x9100 at the two
aligned offsets 0x200 and 0x300, all other words zero, width 64, little
endian, min_len 10, max_len 32) the pipeline reports no base at all: the
two stored copies of 0x9100 collapse to a single Address Index entry, the
sole candidate 0x9000 receives tally 1 and is removed by the `v > 1`
filter. -/
theorem C2_scenarioA_no_base :
    get_base_address sceneA 8 word_from_le_bytes 10 32 100000 1000000 1 = Except.ok none := by
  unfold get_base_address
  rw [sceneA_strings, sceneA_addresses]
  rfl

/-- C2 counterexample: the Scenario A run does not produce the best
candidate 0x9000 with tally 2 claimed by the spec — it finds the single
string offset 0x100 and the deduplicated address 0x9100, so candidate
0x9000 collects only one vote and the pipeline returns `none`. -/
theorem C2_scenarioA_cex :
    get_base_address sceneA 8 word_from_le_bytes 10 32 100000 1000000 1 ≠
      Except.ok (some 0x9000) ∧
    (votes [256] [0x4141414141414141, 0x41414141, 0x9100]).count 0x9000 = 1 := by
  constructor
  · intro h
    have h0 : get_base_address sceneA 8 word_from_le_bytes 10 32 100000 1000000 1 =
        Except.ok none := by
      unfold get_base_address
      rw [sceneA_strings, sceneA_addresses]
      rfl
    rw [h0] at h
    exact Option.noConfusion (Except.ok.inj h)
  · decide

/-- C3: the code does not terminate normally on degenerate inputs.  On the
empty buffer `chunk_size = len / nproc = 0` and the source's
`step_by(chunk_size)` panics; on a 3-byte buffer (shorter than one 64-bit
word and shorter than `min_len = 10`) the trailing partial word makes
`c.try_into().unwrap()` panic.  Both runs end in a panic, not in empty
indices with a "no base found" outcome. -/
theorem C3_degenerate_inputs_panic :
    get_base_address [] 8 word_from_le_bytes 10 32 100000 1000000 1 =
      Except.error "panicked at step_by: step is zero" ∧
    get_base_address [1, 2, 3] 8 word_from_le_bytes 10 32 100000 1000000 1 =
      Except.error "panicked at try_into().unwrap() on a trailing partial word" :=
  ⟨rfl, rfl⟩

/-- C4: once both locators have produced their indices, the voter stage
never fails: if every candidate's tally is at most 1 (so no candidate
survives the `v > 1` filter), `get_base_address` returns the explicit
`none` ("no base found") value. -/
theorem C4_no_survivor_yields_none (bytes : List Nat) (n : Nat) (decode : List Nat → Nat)
    (minLen maxLen maxStrings maxAddresses nproc : Nat) (strs addrs : List Nat)
    (hs : get_strings_by_page_offset bytes minLen maxLen maxStrings nproc = Except.ok strs)
    (ha : get_addresses_by_page_offset bytes n decode maxAddresses = Except.ok addrs)
    (hall : ((base_address_tallies strs addrs).all (fun p => p.2 ≤ 1)) = true) :
    get_base_address bytes n decode minLen maxLen maxStrings maxAddresses nproc =
      Except.ok none := by
  unfold get_base_address
  rw [hs, ha]
  have hrec : recurringCandidates (base_address_tallies strs addrs) = [] := by
    apply List.filter_eq_nil_iff.mpr
    intro p hp
    have hle := List.all_eq_true.mp hall p hp
    simp at hle ⊢
    omega
  show Except.ok (best_from_tallies (base_address_tallies strs addrs)) = Except.ok none
  unfold best_from_tallies sortCandidates
  rw [hrec]
  rfl

theorem C4_no_survivor_yields_none_witness :
    get_strings_by_page_offset (List.replicate 8 0) 10 32 100000 1 = Except.ok [] ∧
    get_addresses_by_page_offset (List.replicate 8 0) 8 word_from_le_bytes 1000000 =
      Except.ok [] ∧
    ((base_address_tallies [] []).all (fun p => p.2 ≤ 1)) = true ∧
    get_base_address (List.replicate 8 0) 8 word_from_le_bytes 10 32 100000 1000000 1 =
      Except.ok none :=
  ⟨rfl, rfl, rfl,
    C4_no_survivor_yields_none (List.replicate 8 0) 8 word_from_le_bytes 10 32 100000 1000000 1
      [] [] rfl rfl rfl⟩

/-- C5: every entry of the final sorted ranking is a candidate whose tally
is strictly greater than 1, and that tally is exactly its vote count; in
particular a candidate whose tally is exactly 1 never appears in the
ranking. -/
theorem C5_ranking_only_recurring (strs addrs : List Nat) (p : Nat × Nat)
    (hp : p ∈ sortCandidates (recurringCandidates (base_address_tallies strs addrs))) :
    1 < p.2 ∧ p.2 = (votes strs addrs).count p.1 := by
  have hp2 : p ∈ recurringCandidates (base_address_tallies strs addrs) :=
    (List.perm_insertionSort descByCount
      (recurringCandidates (base_address_tallies strs addrs))).mem_iff.mp hp
  obtain ⟨hmem, hgt⟩ := List.mem_filter.mp hp2
  refine ⟨by simpa using hgt, ?_⟩
  obtain ⟨c, _, hpe⟩ := List.mem_map.mp hmem
  rw [← hpe]

theorem C5_ranking_only_recurring_witness :
    ((4096, 2) ∈ sortCandidates (recurringCandidates
      (base_address_tallies [16, 24] [4112, 4120]))) ∧
    (1 < (4096, 2).2 ∧
     (4096, 2).2 = (votes [16, 24] [4112, 4120]).count (4096, 2).1) :=
  ⟨by decide, C5_ranking_only_recurring [16, 24] [4112, 4120] (4096, 2) (by decide)⟩

/-- C7: the voter counts exactly one vote for candidate `A - S` for every
pair of a string offset `S` and an address `A` in the bucket of `S`'s page
offset with `A ≥ S`: the tally of a candidate `c` equals the number of such
pairs whose difference is `c`.  Pairs with `A < S` contribute nothing and
the pair `A = S` votes for candidate 0. -/
theorem C7_one_vote_per_pair (strs addrs : List Nat) (c : Nat) :
    (votes strs addrs).count c =
      (strs.map (fun s => (addrs.filter
        (fun a => pageOffset a == pageOffset s && (s ≤ a && a - s == c))).length)).sum := by
  show ((strs.map (fun s => votesForString s addrs)).flatten).count c = _
  rw [List.count_flatten, List.map_map]
  apply congrArg List.sum
  apply List.map_congr_left
  intro s _
  show (votesForString s addrs).count c = _
  unfold votesForString indexByPageOffset
  rw [List.count_eq_countP, List.countP_map, List.countP_filter, List.countP_filter,
    List.countP_eq_length_filter]
  apply congrArg List.length
  apply List.filter_congr
  intro a _
  cases h1 : (a - s == c) <;> cases h2 : (decide (s ≤ a)) <;>
    cases h3 : (pageOffset a == pageOffset s) <;> simp [h1, h2, h3]

/-- C8: bucketing by the low 12 bits never excludes a true match: for W-bit
values with `A ≥ S`, if `A - S = base` and `base & 0xFFF = 0` then `S` and
`A` share the same page-offset bucket key. -/
theorem C8_page_aligned_bucket_agreement (w s a base : Nat)
    (hw : w = 32 ∨ w = 64) (hsw : s < 2 ^ w) (haw : a < 2 ^ w) (hle : s ≤ a)
    (hbase : a - s = base) (halign : pageOffset base = 0) :
    pageOffset s = pageOffset a := by
  simp only [pageOffset_eq_mod] at halign ⊢
  omega

theorem C8_page_aligned_bucket_agreement_witness :
    ((64 : Nat) = 32 ∨ (64 : Nat) = 64) ∧ (256 : Nat) < 2 ^ 64 ∧ (37120 : Nat) < 2 ^ 64 ∧
    (256 : Nat) ≤ 37120 ∧ 37120 - 256 = 36864 ∧ pageOffset 36864 = 0 ∧
    pageOffset 256 = pageOffset 37120 :=
  ⟨Or.inr rfl, by norm_num, by norm_num, by norm_num, by norm_num, by decide,
    C8_page_aligned_bucket_agreement 64 256 37120 36864 (Or.inr rfl) (by norm_num)
      (by norm_num) (by norm_num) (by norm_num) (by decide)⟩

/-- C9 counterexample: the tie buffer yields two candidates (0x5000 and
0x6000) with equal maximal tallies; the concurrent tally map's iteration
order is unspecified, and the two orders shown are both permutations of the
pipeline's tally map for this buffer yet the stable descending sort makes
them report different best candidates.  Determinism of the best candidate
therefore fails; only the tally multiset is determined. -/
theorem C9_tie_order_dependent_cex :
    get_strings_by_page_offset tieBuf 2 3 100000 1 = Except.ok [16, 24] ∧
    get_addresses_by_page_offset tieBuf 4 word_from_le_bytes 1000000 =
      Except.ok [16961, 17475, 4112, 12304, 4120, 12312] ∧
    List.Perm [(4096, 2), (12288, 2)]
      (base_address_tallies [16, 24] [16961, 17475, 4112, 12304, 4120, 12312]) ∧
    List.Perm [(12288, 2), (4096, 2)]
      (base_address_tallies [16, 24] [16961, 17475, 4112, 12304, 4120, 12312]) ∧
    best_from_tallies [(4096, 2), (12288, 2)] ≠
      best_from_tallies [(12288, 2), (4096, 2)] :=
  ⟨rfl, rfl, by decide, by decide, by decide⟩

/-- C9 (amended): provided the sampling caps do not truncate — the
deduplicated string-offset set fits within `max_strings` and the
deduplicated address set within `max_addresses` — the canonical samples are
exactly the full sets, every run's sampled lists (the `take_any` draws over
the randomly seeded sets) are permutations of them, and any two such runs
produce the same tally multiset; whenever the maximal tally is attained by
a unique candidate, both runs also report that same best candidate.  (When
a cap binds, `take_any` returns an arbitrary run-dependent subset and even
the tally multiset can differ between runs; among equal top tallies the
tie-break stays order-dependent in any case.) -/
theorem C9_same_tallies_unique_top_same_best (bytes : List Nat) (n : Nat)
    (decode : List Nat → Nat) (minLen maxLen maxStrings maxAddresses nproc : Nat)
    (strs addrs strs1 addrs1 strs2 addrs2 : List Nat)
    (l1 l2 : List (Nat × Nat)) (top : Nat × Nat)
    (hs : get_strings_by_page_offset bytes minLen maxLen maxStrings nproc = Except.ok strs)
    (ha : get_addresses_by_page_offset bytes n decode maxAddresses = Except.ok addrs)
    (hscap : (string_offset_set bytes minLen maxLen (len bytes / nproc)).length ≤ maxStrings)
    (hacap : (address_set bytes n decode).length ≤ maxAddresses)
    (hp1s : List.Perm strs1 strs) (hp1a : List.Perm addrs1 addrs)
    (hp2s : List.Perm strs2 strs) (hp2a : List.Perm addrs2 addrs)
    (h1 : List.Perm l1 (base_address_tallies strs1 addrs1))
    (h2 : List.Perm l2 (base_address_tallies strs2 addrs2))
    (htop : top ∈ recurringCandidates (base_address_tallies strs addrs))
    (huniq : ((recurringCandidates (base_address_tallies strs addrs)).all
      (fun q => q == top || q.2 < top.2)) = true) :
    strs = string_offset_set bytes minLen maxLen (len bytes / nproc) ∧
    addrs = address_set bytes n decode ∧
    List.Perm l1 l2 ∧
    best_from_tallies l1 = some top.1 ∧ best_from_tallies l2 = some top.1 := by
  have hstrs : strs = string_offset_set bytes minLen maxLen (len bytes / nproc) := by
    rw [get_strings_ok bytes minLen maxLen maxStrings nproc strs hs,
      List.take_of_length_le hscap]
  have haddrs : addrs = address_set bytes n decode := by
    rw [get_addresses_ok bytes n decode maxAddresses addrs ha,
      List.take_of_length_le hacap]
  have ht1 : List.Perm (base_address_tallies strs1 addrs1) (base_address_tallies strs addrs) :=
    base_address_tallies_perm strs1 strs addrs1 addrs hp1s hp1a
  have ht2 : List.Perm (base_address_tallies strs2 addrs2) (base_address_tallies strs addrs) :=
    base_address_tallies_perm strs2 strs addrs2 addrs hp2s hp2a
  have huniq' : ∀ q ∈ recurringCandidates (base_address_tallies strs addrs),
      q ≠ top → q.2 < top.2 := by
    intro q hq hne
    have hq2 := List.all_eq_true.mp huniq q hq
    simp at hq2
    rcases hq2 with h | h
    · exact absurd h hne
    · exact h
  exact ⟨hstrs, haddrs, (h1.trans ht1).trans ((h2.trans ht2).symm),
    best_of_perm_unique_top (base_address_tallies strs addrs) l1 top (h1.trans ht1) htop huniq',
    best_of_perm_unique_top (base_address_tallies strs addrs) l2 top (h2.trans ht2) htop huniq'⟩

theorem C9_same_tallies_unique_top_same_best_witness :
    get_strings_by_page_offset uniqueTopBuf 2 3 100000 1 = Except.ok [16, 24] ∧
    get_addresses_by_page_offset uniqueTopBuf 4 word_from_le_bytes 1000000 =
      Except.ok [16961, 17475, 4112, 12304, 4120] ∧
    (string_offset_set uniqueTopBuf 2 3 (len uniqueTopBuf / 1)).length ≤ 100000 ∧
    (address_set uniqueTopBuf 4 word_from_le_bytes).length ≤ 1000000 ∧
    List.Perm [24, 16] [16, 24] ∧
    List.Perm [4120, 12304, 4112, 17475, 16961] [16961, 17475, 4112, 12304, 4120] ∧
    List.Perm [(12288, 1), (4096, 2)]
      (base_address_tallies [24, 16] [4120, 12304, 4112, 17475, 16961]) ∧
    List.Perm [(12288, 1), (4096, 2)]
      (base_address_tallies [16, 24] [16961, 17475, 4112, 12304, 4120]) ∧
    ((4096, 2) ∈ recurringCandidates
      (base_address_tallies [16, 24] [16961, 17475, 4112, 12304, 4120])) ∧
    ((recurringCandidates
      (base_address_tallies [16, 24] [16961, 17475, 4112, 12304, 4120])).all
        (fun q => q == (4096, 2) || q.2 < (4096, 2).2)) = true ∧
    ([16, 24] = string_offset_set uniqueTopBuf 2 3 (len uniqueTopBuf / 1) ∧
     [16961, 17475, 4112, 12304, 4120] = address_set uniqueTopBuf 4 word_from_le_bytes ∧
     List.Perm [(12288, 1), (4096, 2)] [(12288, 1), (4096, 2)] ∧
     best_from_tallies [(12288, 1), (4096, 2)] = some (4096, 2).1 ∧
     best_from_tallies [(12288, 1), (4096, 2)] = some (4096, 2).1) :=
  ⟨rfl, rfl, by decide, by decide, by decide, by decide, by decide, by decide, by decide,
    by decide,
    C9_same_tallies_unique_top_same_best uniqueTopBuf 4 word_from_le_bytes 2 3 100000 1000000 1
      [16, 24] [16961, 17475, 4112, 12304, 4120]
      [24, 16] [4120, 12304, 4112, 17475, 16961]
      [16, 24] [16961, 17475, 4112, 12304, 4120]
      [(12288, 1), (4096, 2)] [(12288, 1), (4096, 2)] (4096, 2)
      rfl rfl (by decide) (by decide) (by decide) (by decide) (by decide) (by decide)
      (by decide) (by decide) (by decide) (by decide)⟩

/-- C10: the Address Index holds every distinct decoded nonzero word value
at most once — `count v ≤ 1` in any bucket — so an address contributes at
most one vote per string offset: the per-string candidate list also has
`count c ≤ 1`. -/
theorem C10_address_value_at_most_once (bytes : List Nat) (n : Nat) (decode : List Nat → Nat)
    (maxA : Nat) (l : List Nat) (b v s c : Nat)
    (hl : get_addresses_by_page_offset bytes n decode maxA = Except.ok l) :
    (indexByPageOffset l b).count v ≤ 1 ∧ (votesForString s l).count c ≤ 1 := by
  have hnd : l.Nodup := address_list_nodup bytes n decode maxA l hl
  constructor
  · exact List.nodup_iff_count_le_one.mp (List.Nodup.filter _ hnd) v
  · have hnd2 : (((indexByPageOffset l (pageOffset s)).filter (fun a => s ≤ a))).Nodup :=
      List.Nodup.filter _ (List.Nodup.filter _ hnd)
    have hmap : (votesForString s l).Nodup := by
      unfold votesForString
      apply List.Nodup.map_on ?_ hnd2
      intro x hx y hy hxy
      have hxs : s ≤ x := by
        have := (List.mem_filter.mp hx).2
        simpa using this
      have hys : s ≤ y := by
        have := (List.mem_filter.mp hy).2
        simpa using this
      omega
    exact List.nodup_iff_count_le_one.mp hmap c

theorem C10_address_value_at_most_once_witness :
    get_addresses_by_page_offset addr1buf 4 word_from_le_bytes 1000000 = Except.ok [1] ∧
    ((indexByPageOffset [1] 1).count 1 ≤ 1 ∧ (votesForString 1 [1]).count 0 ≤ 1) :=
  ⟨rfl, C10_address_value_at_most_once addr1buf 4 word_from_le_bytes 1000000 [1] 1 1 1 0 rfl⟩

/- Completeness machinery for the scanner: a maximal class run followed by a
NUL, fully contained in a chunk, is reported by `findMatches`. -/

theorem runLenFrom_eq_of (L : Nat) : ∀ (l : List Nat),
    (∀ t, t < L → ∃ b, l[t]? = some b ∧ isClassByte b = true) →
    (∀ b, l[L]? = some b → isClassByte b = false) →
    runLenFrom l = L := by
  induction L with
  | zero =>
    intro l _ hstop
    cases l with
    | nil => rfl
    | cons b rest =>
      have hb := hstop b (by simp)
      simp [runLenFrom, hb]
  | succ L ih =>
    intro l hcls hstop
    obtain ⟨b, hb, hcb⟩ := hcls 0 (Nat.succ_pos L)
    cases l with
    | nil => simp at hb
    | cons b0 rest =>
      have hb0 : b0 = b := by simpa using hb
      subst hb0
      have hrest : runLenFrom rest = L := by
        apply ih rest
        · intro t ht
          obtain ⟨c, hc1, hc2⟩ := hcls (t + 1) (by omega)
          exact ⟨c, by simpa using hc1, hc2⟩
        · intro c hc1
          exact hstop c (by simpa using hc1)
      simp [runLenFrom, hcb, hrest]

theorem class_of_lt_runLenFrom : ∀ (l : List Nat) (t : Nat), t < runLenFrom l →
    ∃ b, l[t]? = some b ∧ isClassByte b = true := by
  intro l
  induction l with
  | nil => intro t ht; simp [runLenFrom] at ht
  | cons b rest ih =>
    intro t ht
    by_cases hb : isClassByte b = true
    · cases t with
      | zero => exact ⟨b, by simp, hb⟩
      | succ t =>
        have ht' : t < runLenFrom rest := by
          simp [runLenFrom, hb] at ht
          omega
        obtain ⟨c, hc1, hc2⟩ := ih t ht'
        exact ⟨c, by simpa using hc1, hc2⟩
    · rw [runLenFrom_nonclass b rest (by simpa using hb)] at ht
      omega

theorem matchAt_bound (chunk : List Nat) (minLen maxLen q r : Nat)
    (h : matchAt chunk minLen maxLen q = some r) :
    minLen ≤ r ∧ r ≤ maxLen ∧ chunk[q + r]? = some 0 ∧ runLenFrom (chunk.drop q) = r := by
  unfold matchAt at h
  by_cases hc : minLen ≤ runLenFrom (chunk.drop q) ∧ runLenFrom (chunk.drop q) ≤ maxLen ∧
      chunk[q + runLenFrom (chunk.drop q)]? = some 0
  · rw [if_pos hc] at h
    have hr : runLenFrom (chunk.drop q) = r := by
      injection h
    rw [hr] at hc
    exact ⟨hc.1, hc.2.1, hc.2.2, hr⟩
  · rw [if_neg hc] at h
    exact absurd h (by simp)

theorem mem_findMatchesAux_reach (chunk : List Nat) (minLen maxLen q L : Nat)
    (hq : matchAt chunk minLen maxLen q = some L)
    (hbefore : ∀ j r, j < q → matchAt chunk minLen maxLen j = some r → j + r < q)
    (hqlen : q < chunk.length) :
    ∀ fuel j, j ≤ q → q + 1 ≤ fuel + j →
      q ∈ findMatchesAux minLen maxLen fuel (chunk.drop j) j := by
  intro fuel
  induction fuel with
  | zero =>
    intro j hj hf
    omega
  | succ fuel ih =>
    intro j hj hf
    have hlt : j < chunk.length := Nat.lt_of_le_of_lt hj hqlen
    have hne : chunk.drop j ≠ [] := by
      rw [ne_eq, List.drop_eq_nil_iff]
      omega
    obtain ⟨b, rest, hbr⟩ := List.exists_cons_of_ne_nil hne
    rw [hbr]
    have hbr_elem : (b :: rest)[runLenFrom (b :: rest)]? =
        chunk[j + runLenFrom (b :: rest)]? := by
      rw [← hbr, List.getElem?_drop]
    by_cases hc : minLen ≤ runLenFrom (b :: rest) ∧ runLenFrom (b :: rest) ≤ maxLen ∧
        (b :: rest)[runLenFrom (b :: rest)]? = some 0
    · have hmj : matchAt chunk minLen maxLen j = some (runLenFrom (b :: rest)) := by
        unfold matchAt
        rw [hbr]
        rw [if_pos ⟨hc.1, hc.2.1, by rw [← hbr_elem]; exact hc.2.2⟩]
      rcases Nat.lt_or_ge j q with hjq | hjq
      · have hend := hbefore j (runLenFrom (b :: rest)) hjq hmj
        simp only [findMatchesAux]
        rw [if_pos hc]
        apply List.mem_cons_of_mem
        have hdrop : rest.drop (runLenFrom (b :: rest)) =
            chunk.drop (j + runLenFrom (b :: rest) + 1) := by
          have h1 : rest.drop (runLenFrom (b :: rest)) =
              (b :: rest).drop (runLenFrom (b :: rest) + 1) := rfl
          rw [h1, ← hbr, List.drop_drop]
          congr 1
        rw [hdrop]
        exact ih (j + runLenFrom (b :: rest) + 1) (by omega) (by omega)
      · have hjq' : j = q := Nat.le_antisymm hj hjq
        subst hjq'
        simp only [findMatchesAux]
        rw [if_pos hc]
        exact List.mem_cons_self _ _
    · have hmj : matchAt chunk minLen maxLen j = none := by
        unfold matchAt
        rw [hbr]
        rw [if_neg]
        intro hcon
        exact hc ⟨hcon.1, hcon.2.1, by rw [hbr_elem]; exact hcon.2.2⟩
      have hjq : j < q := by
        rcases Nat.lt_or_ge j q with h | h
        · exact h
        · have he : j = q := Nat.le_antisymm hj h
          subst he
          rw [hmj] at hq
          exact absurd hq (by simp)
      simp only [findMatchesAux]
      rw [if_neg hc]
      have hrest : rest = chunk.drop (j + 1) := by
        have h1 : rest = (b :: rest).drop 1 := rfl
        rw [h1, ← hbr, List.drop_drop]
      rw [hrest]
      exact ih (j + 1) (by omega) (by omega)

theorem mem_findMatches_of (chunk : List Nat) (minLen maxLen q L : Nat)
    (hq : matchAt chunk minLen maxLen q = some L)
    (hbefore : ∀ j r, j < q → matchAt chunk minLen maxLen j = some r → j + r < q) :
    q ∈ findMatches chunk minLen maxLen := by
  have hb := matchAt_bound chunk minLen maxLen q L hq
  have hqlen : q < chunk.length := by
    obtain ⟨hlt, _⟩ := List.getElem?_eq_some_iff.mp hb.2.2.1
    omega
  have hres := mem_findMatchesAux_reach chunk minLen maxLen q L hq hbefore hqlen
    (len chunk + 1) 0 (Nat.zero_le q) (by rw [len_eq_length]; omega)
  rw [List.drop_zero] at hres
  exact hres

theorem sliceTo_getElem (bytes : List Nat) (i e t : Nat) (ht : t < e - i) :
    (sliceTo bytes i e)[t]? = bytes[i + t]? := by
  unfold sliceTo
  rw [List.getElem?_take_of_lt ht, List.getElem?_drop]

theorem sliceTo_length (bytes : List Nat) (i e : Nat) (he : e ≤ bytes.length) :
    (sliceTo bytes i e).length = e - i := by
  unfold sliceTo
  rw [List.length_take, List.length_drop]
  omega

theorem chunk_scan_hit (bytes : List Nat) (minLen maxLen p L i q e : Nat)
    (hminL : minLen ≤ L) (hLmax : L ≤ maxLen)
    (hiq : i + q = p)
    (hqe : q + L < e - i)
    (he_le : e ≤ bytes.length)
    (hclsb : ∀ t, t < L → ∃ b, bytes[p + t]? = some b ∧ isClassByte b = true)
    (hnul : bytes[p + L]? = some 0)
    (hpre : p = 0 ∨ (bytes[p - 1]?).map isClassByte = some false) :
    q ∈ findMatches (sliceTo bytes i e) minLen maxLen := by
  have hget : ∀ t, t < e - i → (sliceTo bytes i e)[t]? = bytes[i + t]? :=
    fun t ht => sliceTo_getElem bytes i e t ht
  have hchlen : (sliceTo bytes i e).length = e - i := sliceTo_length bytes i e he_le
  have hrunq : runLenFrom ((sliceTo bytes i e).drop q) = L := by
    apply runLenFrom_eq_of
    · intro t ht
      obtain ⟨b, hb1, hb2⟩ := hclsb t ht
      refine ⟨b, ?_, hb2⟩
      rw [List.getElem?_drop, hget (q + t) (by omega),
        show i + (q + t) = p + t from by omega]
      exact hb1
    · intro b hb
      rw [List.getElem?_drop, hget (q + L) (by omega),
        show i + (q + L) = p + L from by omega, hnul] at hb
      have hb0 : 0 = b := by injection hb
      rw [← hb0]
      decide
  have hq_nul : (sliceTo bytes i e)[q + L]? = some 0 := by
    rw [hget (q + L) (by omega), show i + (q + L) = p + L from by omega]
    exact hnul
  have hmatchq : matchAt (sliceTo bytes i e) minLen maxLen q = some L := by
    unfold matchAt
    rw [hrunq, if_pos ⟨hminL, hLmax, hq_nul⟩]
  have hbefore : ∀ j r, j < q → matchAt (sliceTo bytes i e) minLen maxLen j = some r →
      j + r < q := by
    intro j r hj hm
    obtain ⟨hm1, hm2, hm3, hm4⟩ := matchAt_bound _ minLen maxLen j r hm
    by_contra hge
    push_neg at hge
    have hjr_len : j + r < (sliceTo bytes i e).length :=
      (List.getElem?_eq_some_iff.mp hm3).1
    rw [hchlen] at hjr_len
    rcases Nat.lt_or_ge (j + r) (q + L) with hlt2 | hge2
    · obtain ⟨b, hb1, hb2⟩ := hclsb (j + r - q) (by omega)
      rw [hget (j + r) (by omega), show i + (j + r) = p + (j + r - q) from by omega,
        hb1] at hm3
      have hb0 : b = 0 := by injection hm3
      rw [hb0] at hb2
      exact absurd hb2 (by decide)
    · have ht' : q - 1 - j < runLenFrom ((sliceTo bytes i e).drop j) := by
        rw [hm4]
        omega
      obtain ⟨b, hb1, hb2⟩ := class_of_lt_runLenFrom _ _ ht'
      rw [List.getElem?_drop, show j + (q - 1 - j) = q - 1 from by omega,
        hget (q - 1) (by omega), show i + (q - 1) = p - 1 from by omega] at hb1
      rcases hpre with hp0 | hp1
      · omega
      · rw [hb1] at hp1
        simp at hp1
        exact absurd hb2 (by simp [hp1])
  exact mem_findMatches_of _ minLen maxLen q L hmatchq hbefore

/-- C6 counterexample: in the 16-byte buffer `straddleBuf` the bytes at
offsets 7-10 form a maximal printable run of length 4 = max_len, followed
by a NUL at offset 11 and preceded by a non-printable byte.  With two
chunks (`nproc = 2`, chunk size 8, overlap `max_len - 1 = 3`) the first
chunk ends at offset 11 and so does not contain the NUL, while the second
chunk starts at offset 8, inside the run; the scanner therefore records the
truncated offset 8 and never the true start offset 7.  The overlap of
`max_len - 1` bytes does not guarantee completeness: it is one byte too
short for a run of length exactly `max_len` (run plus NUL span
`max_len + 1` bytes). -/
theorem C6_straddling_max_run_missed_cex :
    ((((straddleBuf.drop 7).take 4).all isClassByte) = true) ∧
    ((straddleBuf.drop 7).take 4).length = 4 ∧
    straddleBuf[7 + 4]? = some 0 ∧
    (straddleBuf[6]?).map isClassByte = some false ∧
    ((2 : Nat) ≤ 4 ∧ (4 : Nat) ≤ 4) ∧
    string_offsets straddleBuf 2 4 2 = Except.ok [8] ∧
    ¬ (7 ∈ ([8] : List Nat)) :=
  ⟨by decide, by decide, by decide, by decide, by decide, rfl, by decide⟩

/-- C6 (amended): the overlap guarantees completeness only for runs
strictly shorter than `max_len`: for every maximal printable-class run of
length `L` with `min_len ≤ L` and `L + 1 ≤ max_len`, immediately followed
by a NUL terminator, the absolute start offset of the run is recorded in
the deduplicating string-offset set by at least one chunk, including
occurrences that straddle a chunk boundary (runs of length exactly
`max_len` can be missed, as the counterexample shows). -/
theorem C6_overlap_completeness_below_max (bytes : List Nat)
    (minLen maxLen nproc p L : Nat)
    (hc : 0 < len bytes / nproc)
    (hminL : minLen ≤ L) (hmaxL : L + 1 ≤ maxLen)
    (hlen : ((bytes.drop p).take L).length = L)
    (hcls : (((bytes.drop p).take L).all isClassByte) = true)
    (hnul : bytes[p + L]? = some 0)
    (hpre : p = 0 ∨ (bytes[p - 1]?).map isClassByte = some false) :
    string_offsets bytes minLen maxLen nproc =
      Except.ok (string_offset_set bytes minLen maxLen (len bytes / nproc)) ∧
    p ∈ string_offset_set bytes minLen maxLen (len bytes / nproc) := by
  have hlimit : len bytes = bytes.length := len_eq_length bytes
  have hpL : p + L < bytes.length := by
    obtain ⟨h, _⟩ := List.getElem?_eq_some_iff.mp hnul
    omega
  have hclsb : ∀ t, t < L → ∃ b, bytes[p + t]? = some b ∧ isClassByte b = true := by
    intro t ht
    have h2 : t < ((bytes.drop p).take L).length := by omega
    refine ⟨((bytes.drop p).take L)[t], ?_, ?_⟩
    · have h3 : ((bytes.drop p).take L)[t]? = some (((bytes.drop p).take L)[t]) :=
        List.getElem?_eq_getElem h2
      rw [List.getElem?_take_of_lt ht, List.getElem?_drop] at h3
      exact h3
    · exact List.all_eq_true.mp hcls _ (List.getElem_mem h2)
  refine ⟨?_, ?_⟩
  · unfold string_offsets
    rw [if_neg (by omega)]
  · generalize len bytes / nproc = c at hc ⊢
    have hq : p % c < c := Nat.mod_lt p hc
    have hdm := Nat.div_add_mod p c
    rw [Nat.mul_comm] at hdm
    have hk : p / c * c ≤ p := Nat.div_mul_le_self p c
    have hplen : p < bytes.length := by omega
    unfold string_offset_set
    rw [List.mem_dedup]
    apply List.mem_flatMap.mpr
    refine ⟨(p / c * c, sliceTo bytes (p / c * c)
      (Nat.min (p / c * c + c + maxLen - 1) (len bytes))), ?_, ?_⟩
    · unfold overlappingChunks
      apply List.mem_map.mpr
      refine ⟨p / c * c, ?_, rfl⟩
      unfold chunkStarts
      apply List.mem_map.mpr
      refine ⟨p / c, ?_, rfl⟩
      apply List.mem_range.mpr
      have h5 : (p / c + 1) * c ≤ len bytes + c - 1 := by
        rw [Nat.succ_mul]
        omega
      have h6 := (Nat.le_div_iff_mul_le hc).mpr h5
      omega
    · apply List.mem_map.mpr
      refine ⟨p % c, ?_, ?_⟩
      · have hlow : p / c * c + (p % c + L) <
            Nat.min (p / c * c + c + maxLen - 1) (len bytes) := by
          unfold Nat.min
          exact lt_inf_iff.mpr ⟨by omega, by omega⟩
        have hminr : Nat.min (p / c * c + c + maxLen - 1) (len bytes) ≤ bytes.length := by
          unfold Nat.min
          exact le_trans inf_le_right (by omega)
        apply chunk_scan_hit bytes minLen maxLen p L (p / c * c) (p % c)
          (Nat.min (p / c * c + c + maxLen - 1) (len bytes)) hminL (by omega) (by omega)
          (by omega) hminr hclsb hnul hpre
      · show p / c * c + p % c = p
        omega

theorem C6_overlap_completeness_below_max_witness :
    0 < len [0x41, 0x41, 0x41, 0] / 1 ∧
    ((2 : Nat) ≤ 3 ∧ (3 : Nat) + 1 ≤ 4) ∧
    ((((([0x41, 0x41, 0x41, 0] : List Nat).drop 0).take 3).length = 3) ∧
     (((([0x41, 0x41, 0x41, 0] : List Nat).drop 0).take 3).all isClassByte) = true) ∧
    ([0x41, 0x41, 0x41, 0] : List Nat)[0 + 3]? = some 0 ∧
    ((0 : Nat) = 0 ∨
      (([0x41, 0x41, 0x41, 0] : List Nat)[0 - 1]?).map isClassByte = some false) ∧
    (string_offsets [0x41, 0x41, 0x41, 0] 2 4 1 =
       Except.ok (string_offset_set [0x41, 0x41, 0x41, 0] 2 4
         (len [0x41, 0x41, 0x41, 0] / 1)) ∧
     0 ∈ string_offset_set [0x41, 0x41, 0x41, 0] 2 4 (len [0x41, 0x41, 0x41, 0] / 1)) :=
  ⟨by decide, by decide, by decide, by decide, Or.inl rfl,
    C6_overlap_completeness_below_max [0x41, 0x41, 0x41, 0] 2 4 1 0 3 (by decide)
      (by decide) (by decide) (by decide) (by decide) (by decide) (Or.inl rfl)⟩

end RBase
